import Mathlib

set_option maxHeartbeats 1000000

/- A shallow embedding of the rash shell-history tool (pombreda/rash): the
   one-shot ingestion sweep of src/rash/index.py and the interactive-search
   adapter of src/rash/interactive_search.py, together with the pieces of
   the Python runtime they rely on.  Python strings are modelled as lists
   of characters. -/

abbrev Str : Type := List Char

/-- Backslash character, named to keep escape sequences out of literals. -/
def backslashChar : Char := Char.ofNat 92

/-- Single-quote character. -/
def squoteChar : Char := Char.ofNat 39

/-- Double-quote character. -/
def dquoteChar : Char := Char.ofNat 34

/-- Characters for which Python `str.isspace()` holds; `str.strip()` with no
argument removes exactly these characters from both ends of a string. -/
def pyIsSpace (c : Char) : Bool :=
  decide (c ∈ [' ', '\t', '\n', '\r', '\x0b', '\x0c',
    '\x1c', '\x1d', '\x1e', '\x1f', '\x85', '\xa0',
    ' ', ' ', ' ', ' ', ' ', ' ', ' ',
    ' ', ' ', ' ', ' ', ' ',
    ' ', ' ', ' ', ' ', '　'])

/-- Python `str.strip()` with no argument: drop whitespace from both ends. -/
def pyStrip (s : Str) : Str :=
  ((s.dropWhile pyIsSpace).reverse.dropWhile pyIsSpace).reverse

/-- Python `str.endswith(suffix)`: the last `suffix.length` characters of `s`
equal `suffix`. -/
def pyEndsWith (s suffix : Str) : Bool :=
  decide (s.drop (s.length - suffix.length) = suffix)

/- ## Glob stripping (src/rash/interactive_search.py, lines 13-33)

`_GLOB_PORTION_RE` is the Python regex with the three alternatives
star, dot-question, bracket-class, and `strip_glob` substitutes every
non-overlapping leftmost match with `split_str` and then calls the
no-argument `str.strip()`. -/

/-- Scanning for the closing bracket of the class alternative: at least the
first character has already been seen to be distinct from the closing
bracket; returns the remainder after the first closing bracket. -/
def bracketRemGo : Str → Option Str
  | [] => none
  | c :: rest => if c = ']' then some rest else bracketRemGo rest

/-- The bracket-class alternative of `_GLOB_PORTION_RE`, applied to the text
after the opening bracket: one or more characters distinct from the closing
bracket, then the closing bracket.  Returns the remainder after the match. -/
def bracketRem : Str → Option Str
  | [] => none
  | c :: rest => if c = ']' then none else bracketRemGo rest

/-- Match of `_GLOB_PORTION_RE` at the head of `s`, returning the remainder
after the match.  Python alternation is leftmost-first: a literal star;
else any character other than a newline followed by a question mark; else a
bracket class. -/
def globMatchAt : Str → Option Str
  | [] => none
  | c :: rest =>
    if c = '*' then some rest
    else if rest.head? = some '?' ∧ c ≠ '\n' then some rest.tail
    else if c = '[' then bracketRem rest
    else none

/-- The scan of `re.sub`: at each position substitute the leftmost match by
`sep` and continue after it, otherwise keep the character.  The fuel is the
length of the string (each step consumes at least one character). -/
def globSubFuel (sep : Str) : Nat → Str → Str
  | _, [] => []
  | 0, s => s
  | fuel + 1, c :: rest =>
    match globMatchAt (c :: rest) with
    | some r => sep ++ globSubFuel sep fuel r
    | none => c :: globSubFuel sep fuel rest

/-- `_GLOB_PORTION_RE.sub(sep, s)`. -/
def globSub (sep : Str) (s : Str) : Str := globSubFuel sep s.length s

/-- `strip_glob(string, split_str)` from src/rash/interactive_search.py:
substitute every glob portion by `split_str`, then `str.strip()`. -/
def strip_glob (string : Str) (split_str : Str) : Str :=
  pyStrip (globSub split_str string)

/- ## Amended-specification formulation of glob stripping

A second formulation written from the amended wording of the specification,
used to compare with the source embedding above: the pattern is tokenised
into literal characters and metacharacter matches, each match is rendered
as one copy of the separator, and whitespace is trimmed from both ends. -/

/-- Position of the first closing bracket in a string. -/
def firstCloseIdx : Str → Option Nat
  | [] => none
  | c :: rest => if c = ']' then some 0 else (firstCloseIdx rest).map (· + 1)

/-- Length of a bracket-class match at the head of the string: an opening
bracket, one or more characters distinct from the closing bracket, and the
closing bracket. -/
def specBracketLen : Str → Option Nat
  | [] => none
  | c :: body =>
    if c = '[' then
      match firstCloseIdx body with
      | none => none
      | some 0 => none
      | some (k + 1) => some (k + 3)
    else none

/-- Length of the leftmost metacharacter match at the head of the string:
a star, or a single question mark together with the one preceding
character (which must not be a newline), or a bracket class. -/
def specMatchLen (s : Str) : Option Nat :=
  if s.head? = some '*' then some 1
  else if s.tail.head? = some '?' ∧ s.head? ≠ some '\n' then some 2
  else specBracketLen s

/-- A token of the amended specification: a literal character or one
metacharacter match. -/
inductive GlobToken
  | lit (c : Char)
  | meta
deriving DecidableEq

/-- Tokenisation of a pattern into literal characters and metacharacter
matches, scanning left to right. -/
def globTokenizeFuel : Nat → Str → List GlobToken
  | _, [] => []
  | 0, _ :: _ => []
  | fuel + 1, c :: rest =>
    match specMatchLen (c :: rest) with
    | some n => GlobToken.meta :: globTokenizeFuel fuel ((c :: rest).drop n)
    | none => GlobToken.lit c :: globTokenizeFuel fuel rest

/-- Tokenisation with sufficient fuel. -/
def globTokenize (s : Str) : List GlobToken := globTokenizeFuel s.length s

/-- Rendering of the token list: each literal keeps its character, each
metacharacter match contributes one copy of the separator. -/
def renderTokens (sep : Str) (ts : List GlobToken) : Str :=
  (ts.map (fun t => match t with | GlobToken.lit c => [c] | GlobToken.meta => sep)).flatten

/-- Glob stripping as the amended specification words it: replace each
leftmost non-overlapping metacharacter match with one copy of the
separator, then trim leading and trailing whitespace. -/
def stripGlobSpec (string split_str : Str) : Str :=
  pyStrip (renderTokens split_str (globTokenize string))

/- ## The data model (specification section 3) -/

/-- The three record kinds. -/
inductive RecordKind
  | init
  | exit
  | command
deriving DecidableEq

/-- An event record as described by the specification data model: one
session-init, session-exit, or command-execution occurrence. -/
structure EventRecord where
  session_id : Str
  kind : RecordKind
  start : Option Nat
  stop : Option Nat
  command : Str
  cwd : Str
  exit_code : Int
  pipestatus : List Int
  environ : List (Str × Str)
deriving DecidableEq

/-- Modelled from the spec: the deduplication fingerprint, a composite of
(session_id, record kind, stop-or-start, command, cwd). -/
def fingerprint (r : EventRecord) : Str × RecordKind × Option Nat × Str × Str :=
  (r.session_id, r.kind,
   (match r.stop with | some t => some t | none => r.start),
   r.command, r.cwd)

/-- A row of the sessions table: the session id with nullable start/stop. -/
structure SessionRow where
  session_id : Str
  start : Option Nat
  stop : Option Nat
deriving DecidableEq

/-- The Index Store: a sessions table and a commands table, rows kept in
insertion order. -/
structure IndexStore where
  sessions : List SessionRow
  commands : List EventRecord
deriving DecidableEq

/-- Total number of rows in the Index Store. -/
def rowCount (db : IndexStore) : Nat := db.sessions.length + db.commands.length

/-- A sessions row with the given session id exists. -/
def sessionExists (rows : List SessionRow) (sid : Str) : Bool :=
  rows.any (fun s => decide (s.session_id = sid))

/-- A command row with the same fingerprint exists. -/
def commandDup (rows : List EventRecord) (r : EventRecord) : Bool :=
  rows.any (fun x => decide (fingerprint x = fingerprint r))

/-- Update of one sessions row from an init record (sets start) or an exit
record (sets stop). -/
def updateSessionRow (s : SessionRow) (r : EventRecord) : SessionRow :=
  match r.kind with
  | RecordKind.init => { s with start := r.start }
  | RecordKind.exit => { s with stop := r.stop }
  | RecordKind.command => s

/-- Modelled from the spec: the upsert of the sessions row keyed by
session_id performed when an init or exit record is ingested. -/
def upsertSession (rows : List SessionRow) (r : EventRecord) : List SessionRow :=
  if sessionExists rows r.session_id then
    rows.map (fun s => if s.session_id = r.session_id then updateSessionRow s r else s)
  else
    rows ++ [updateSessionRow ⟨r.session_id, none, none⟩ r]

/-- Modelled from the spec: `DataBase.import_json` — src/rash/database.py is
not among the repository sources, so its behaviour is taken from the
specification.  The file content is parsed; a malformed file (`none`) is
logged and skipped without raising and without touching the store; an init
or exit record upserts the matching sessions row; a command record is
appended to the commands table, preceded, when `check_duplicate` is set, by
a fingerprint lookup that silently drops an already-present record. -/
def import_json (db : IndexStore) (content : Option EventRecord)
    (check_duplicate : Bool) : IndexStore :=
  match content with
  | none => db
  | some r =>
    match r.kind with
    | RecordKind.command =>
      if check_duplicate && commandDup db.commands r then db
      else { db with commands := db.commands ++ [r] }
    | _ => { db with sessions := upsertSession db.sessions r }

/-- The store already holds the record: for a command record its fingerprint
occurs in the commands table, for an init or exit record a sessions row with
the same session id exists. -/
def containsRecord (db : IndexStore) (r : EventRecord) : Bool :=
  match r.kind with
  | RecordKind.command => commandDup db.commands r
  | _ => sessionExists db.sessions r.session_id

/- ## The ingestion sweep (src/rash/index.py, lines 1-29) -/

/-- One staging file: its directory, its file name, and its content — `some
r` when the file holds a well-formed record, `none` when the file is
malformed (unparseable or schema-invalid, for instance truncated). -/
structure SFile where
  dir : Str
  name : Str
  content : Option EventRecord
deriving DecidableEq

/-- `os.path.join(root, f)` for a directory that does not already end in the
separator. -/
def joinPath (d n : Str) : Str := d ++ '/' :: n

/-- The full path of a staging file, as `index_run` computes it. -/
def filePath (f : SFile) : Str := joinPath f.dir f.name

/-- The suffix checked by `json_path.endswith` in `index_run`. -/
def jsonSuffix : Str := ['.', 'j', 's', 'o', 'n']

/-- Observable actions of a sweep: a call of `db.import_json(path, flag)`
and a call of `os.remove(path)`. -/
inductive SweepEvent
  | imported (path : Str) (check_duplicate : Bool)
  | removed (path : Str)
deriving DecidableEq

/-- The path an event refers to. -/
def eventPath : SweepEvent → Str
  | SweepEvent.imported p _ => p
  | SweepEvent.removed p => p

/-- Outcome of a sweep: final store, event trace in execution order, removed
paths, whether an uncaught `OSError` from `os.remove` aborted the sweep, and
the Python return value of `index_run` (the function body has no return
statement). -/
structure SweepResult where
  db : IndexStore
  events : List SweepEvent
  removedPaths : List Str
  error : Bool
  retval : Option Nat
deriving DecidableEq

/-- The `os.walk` loop of `index_run` (src/rash/index.py lines 22-28) over
the staging files in enumeration order: for every file whose joined path
ends in the json suffix the record is imported, and, unless `keep_json` is
set, the file is removed afterwards.  `remove_fails` tells which paths make
`os.remove` raise; such an exception is uncaught, so it aborts the rest of
the sweep after the already-performed import. -/
def sweepFiles (remove_fails : Str → Bool) (keep_json check_duplicate : Bool) :
    List SFile → IndexStore → SweepResult
  | [], db => ⟨db, [], [], false, none⟩
  | f :: rest, db =>
    if pyEndsWith (filePath f) jsonSuffix then
      let db2 := import_json db f.content check_duplicate
      if keep_json then
        let r := sweepFiles remove_fails keep_json check_duplicate rest db2
        ⟨r.db, SweepEvent.imported (filePath f) check_duplicate :: r.events,
         r.removedPaths, r.error, r.retval⟩
      else if remove_fails (filePath f) then
        ⟨db2, [SweepEvent.imported (filePath f) check_duplicate], [], true, none⟩
      else
        let r := sweepFiles remove_fails keep_json check_duplicate rest db2
        ⟨r.db,
         SweepEvent.imported (filePath f) check_duplicate ::
           SweepEvent.removed (filePath f) :: r.events,
         filePath f :: r.removedPaths, r.error, r.retval⟩
    else
      sweepFiles remove_fails keep_json check_duplicate rest db

/-- `index_run(record_path, keep_json, check_duplicate)` from
src/rash/index.py: `check_duplicate` is forced on when `keep_json` is set
(lines 16-17), then the staging tree is swept.  The store and the
remove-failure environment are explicit parameters of the embedding. -/
def index_run (record_path : List SFile) (keep_json check_duplicate : Bool)
    (db : IndexStore) (remove_fails : Str → Bool) : SweepResult :=
  sweepFiles remove_fails keep_json
    (if keep_json then true else check_duplicate) record_path db

/-- Every removed path was import-processed earlier in the event trace;
`seen` accumulates the paths already imported. -/
def removedAfterImported : List SweepEvent → List Str → Bool
  | [], _ => true
  | SweepEvent.imported p _ :: rest, seen => removedAfterImported rest (p :: seen)
  | SweepEvent.removed p :: rest, seen =>
    decide (p ∈ seen) && removedAfterImported rest seen

/- ## The interactive finder adapter (src/rash/interactive_search.py) -/

/-- Modelled from the spec: the result of the structured-filter parse
`preprocess_kwds(vars(parser.parse_args(args)))` — search.py
(`search_add_arguments`, `preprocess_kwds`) is not among the repository
sources, so only the observable that `RashFinder.find` reads is kept: the
`pattern` list of positional free-text terms.  The parse is passed to the
embedding of `find` as a function argument that returns `none` where the
Python call raises `ValueError` (argparse errors become `ValueError`
through `SafeArgumentParser.exit`, lines 36-44). -/
structure ParsedKwds where
  pattern : List Str
deriving DecidableEq

/-- The keyword arguments passed on to `db.search_command_record`. -/
structure SearchKwds where
  pattern : List Str
  limit : Nat
deriving DecidableEq

/-- Observable outcome of one `RashFinder.find` call: the keyword arguments
given to `search_command_record` (none when the parse failed and the call
fell back), the query string and collection handed to the base finder of
the external incremental-search library, and the base finder's result. -/
structure FindCall (ρ : Type) where
  searchKwds : Option SearchKwds
  baseQuery : Str
  baseCollection : List Str
  result : ρ
deriving DecidableEq

/-- Lexer states of CPython `shlex` in posix mode. -/
inductive ShlexState
  | word
  | single
  | double
  | escWord
  | escDouble
deriving DecidableEq

/-- The `shlex` whitespace characters. -/
def shlexWs (c : Char) : Bool :=
  decide (c = ' ' ∨ c = '\t' ∨ c = '\r' ∨ c = '\n')

/-- Append the pending token, if one exists, to the finished tokens. -/
def shlexFlush (tok : Option Str) (acc : List Str) : List Str :=
  match tok with
  | none => acc
  | some t => acc ++ [t]

/-- CPython `shlex.split` (posix mode, whitespace split, comments off), the
call `RashFinder.find` makes before its try block: outside quotes a
backslash escapes any character; single quotes are literal until the next
single quote; inside double quotes a backslash escapes only the double
quote and the backslash itself and is otherwise kept; an unterminated quote
or a trailing escape raises `ValueError`, modelled as `none`. -/
def shlexRun : List Char → ShlexState → Option Str → List Str → Option (List Str)
  | [], ShlexState.word, tok, acc => some (shlexFlush tok acc)
  | [], _, _, _ => none
  | c :: rest, ShlexState.word, tok, acc =>
    if shlexWs c then shlexRun rest ShlexState.word none (shlexFlush tok acc)
    else if c = squoteChar then shlexRun rest ShlexState.single (some (tok.getD [])) acc
    else if c = dquoteChar then shlexRun rest ShlexState.double (some (tok.getD [])) acc
    else if c = backslashChar then shlexRun rest ShlexState.escWord (some (tok.getD [])) acc
    else shlexRun rest ShlexState.word (some (tok.getD [] ++ [c])) acc
  | c :: rest, ShlexState.single, tok, acc =>
    if c = squoteChar then shlexRun rest ShlexState.word tok acc
    else shlexRun rest ShlexState.single (some (tok.getD [] ++ [c])) acc
  | c :: rest, ShlexState.double, tok, acc =>
    if c = dquoteChar then shlexRun rest ShlexState.word tok acc
    else if c = backslashChar then shlexRun rest ShlexState.escDouble tok acc
    else shlexRun rest ShlexState.double (some (tok.getD [] ++ [c])) acc
  | c :: rest, ShlexState.escWord, tok, acc =>
    shlexRun rest ShlexState.word (some (tok.getD [] ++ [c])) acc
  | c :: rest, ShlexState.escDouble, tok, acc =>
    if c = dquoteChar ∨ c = backslashChar then
      shlexRun rest ShlexState.double (some (tok.getD [] ++ [c])) acc
    else shlexRun rest ShlexState.double (some (tok.getD [] ++ [backslashChar, c])) acc

/-- `shlex.split(query)`; `none` models an uncaught `ValueError`. -/
def shlexSplit (s : Str) : Option (List Str) :=
  shlexRun s ShlexState.word none []

/-- `RashFinder.find(query, collection)` (src/rash/interactive_search.py
lines 60-84).  `shlex.split` runs before the try block, so its `ValueError`
propagates out of `find` (result `none`).  A `ValueError` inside the try
block (the structured parse) falls back to the base finder on the original
query and collection.  On a successful parse the limit is 1000, lowered to
50 when the parsed pattern list is empty; the search runs with that limit,
the collection becomes the commands of the found records, and the base
finder receives the glob-stripped patterns joined by `split_str`. -/
def rashFinderFind {ρ : Type} (parse : List Str → Option ParsedKwds)
    (search_command_record : SearchKwds → List EventRecord)
    (baseFind : Str → List Str → ρ)
    (split_str : Str) (query : Str) (collection : List Str) :
    Option (FindCall ρ) :=
  match shlexSplit query with
  | none => none
  | some args =>
    match parse args with
    | none => some ⟨none, query, collection, baseFind query collection⟩
    | some kwds =>
      let queries := kwds.pattern
      let lim : Nat := if queries = [] then 50 else 1000
      let skwds : SearchKwds := ⟨queries, lim⟩
      let coll2 := (search_command_record skwds).map (fun r => r.command)
      let q2 := List.intercalate split_str (queries.map (fun q => strip_glob q split_str))
      some ⟨some skwds, q2, coll2, baseFind q2 coll2⟩

/- ## Concrete instances used by counterexamples and witnesses -/

/-- A remove-failure environment in which no deletion fails. -/
def noRemoveFail : Str → Bool := fun _ => false

/-- A remove-failure environment in which every deletion fails. -/
def failRemove : Str → Bool := fun _ => true

/-- The empty Index Store. -/
def emptyStore : IndexStore := ⟨[], []⟩

/-- A concrete command record. -/
def cexRecord : EventRecord :=
  ⟨['s'], RecordKind.command, none, some 1, ['l', 's'], ['/', 'h'], 0, [0], []⟩

/-- A store that already holds `cexRecord`. -/
def cexStore : IndexStore := ⟨[], [cexRecord]⟩

/-- A staging file holding `cexRecord`, with a json file name. -/
def cexFile : SFile := ⟨['d'], ['r', '.', 'j', 's', 'o', 'n'], some cexRecord⟩

/-- A fresh command record, absent from `emptyStore`. -/
def wRecord : EventRecord :=
  ⟨['t'], RecordKind.command, some 2, some 3, ['c', 'd'], ['/'], 0, [0], []⟩

/-- A staging file holding `wRecord`, with a json file name. -/
def wFile : SFile := ⟨['d'], ['n', '.', 'j', 's', 'o', 'n'], some wRecord⟩

/-- A staging file whose name does not end in the json suffix. -/
def wTxtFile : SFile := ⟨['d'], ['a', '.', 't', 'x', 't'], some wRecord⟩

/- ## Theorems -/

theorem bracketRemGo_eq_firstClose (l : Str) :
    bracketRemGo l = (firstCloseIdx l).map (fun j => l.drop (j + 1)) := by
  induction l with
  | nil => rfl
  | cons c rest ih =>
    by_cases h : c = ']'
    · simp [bracketRemGo, firstCloseIdx, h]
    · cases hf : firstCloseIdx rest with
      | none => simp [bracketRemGo, firstCloseIdx, h, hf, ih]
      | some j => simp [bracketRemGo, firstCloseIdx, h, hf, ih]

theorem globMatchAt_eq_spec (s : Str) :
    globMatchAt s = (specMatchLen s).map (fun n => s.drop n) := by
  cases s with
  | nil => rfl
  | cons c rest =>
    by_cases hstar : c = '*'
    · simp [globMatchAt, specMatchLen, hstar]
    · by_cases halt2 : rest.head? = some '?' ∧ c ≠ '\n'
      · simp [globMatchAt, specMatchLen, hstar, halt2.1, halt2.2, List.drop_one]
      · by_cases hbr : c = '['
        · subst hbr
          have hnl : ('[' : Char) ≠ '\n' := by decide
          cases rest with
          | nil => simp [globMatchAt, specMatchLen, bracketRem, specBracketLen, hstar, halt2,
              firstCloseIdx]
          | cons x rest2 =>
            have hq : x ≠ '?' := by
              intro hx
              exact halt2 ⟨by simp [hx], hnl⟩
            by_cases hx : x = ']'
            · simp [globMatchAt, specMatchLen, bracketRem, specBracketLen, hstar, hq, hx,
                firstCloseIdx]
            · cases hf : firstCloseIdx rest2 with
              | none => simp [globMatchAt, specMatchLen, bracketRem, specBracketLen, hstar,
                  hq, hx, hf, firstCloseIdx, bracketRemGo_eq_firstClose]
              | some j => simp [globMatchAt, specMatchLen, bracketRem, specBracketLen, hstar,
                  hq, hx, hf, firstCloseIdx, bracketRemGo_eq_firstClose]
        · cases rest with
          | nil => simp [globMatchAt, specMatchLen, specBracketLen, hstar, halt2, hbr]
          | cons x rest2 =>
            have hq : ¬((x :: rest2).head? = some '?' ∧ c ≠ '\n') := halt2
            simp [globMatchAt, specMatchLen, specBracketLen, hstar, hq, hbr]

theorem bracketRemGo_length {l r : Str} (h : bracketRemGo l = some r) :
    r.length < l.length := by
  induction l with
  | nil => simp [bracketRemGo] at h
  | cons c rest ih =>
    by_cases hc : c = ']'
    · simp [bracketRemGo, hc] at h
      subst h
      simp
    · simp [bracketRemGo, hc] at h
      exact Nat.lt_trans (ih h) (by simp)

theorem bracketRem_length {l r : Str} (h : bracketRem l = some r) :
    r.length < l.length := by
  cases l with
  | nil => simp [bracketRem] at h
  | cons c rest =>
    by_cases hc : c = ']'
    · simp [bracketRem, hc] at h
    · simp [bracketRem, hc] at h
      exact Nat.lt_trans (bracketRemGo_length h) (by simp)

theorem globMatchAt_length {s r : Str} (h : globMatchAt s = some r) :
    r.length < s.length := by
  cases s with
  | nil => simp [globMatchAt] at h
  | cons c rest =>
    by_cases hstar : c = '*'
    · simp [globMatchAt, hstar] at h
      subst h
      simp
    · by_cases halt2 : rest.head? = some '?' ∧ c ≠ '\n'
      · simp [globMatchAt, hstar, halt2.1, halt2.2] at h
        subst h
        have : rest.tail.length ≤ rest.length := by
          cases rest <;> simp
        simpa using Nat.lt_succ_of_le this
      · by_cases hbr : c = '['
        · have hq : rest.head? ≠ some '?' := by
            intro hh
            exact halt2 ⟨hh, by simp [hbr]⟩
          simp [globMatchAt, hstar, hq, hbr] at h
          exact Nat.lt_trans (bracketRem_length h) (by simp)
        · simp [globMatchAt, hstar, halt2, hbr] at h

theorem globSubFuel_eq_render (sep : Str) :
    ∀ fuel s, s.length ≤ fuel →
      globSubFuel sep fuel s = renderTokens sep (globTokenizeFuel fuel s) := by
  intro fuel
  induction fuel with
  | zero =>
    intro s hs
    have hnil : s = [] := List.eq_nil_of_length_eq_zero (Nat.le_zero.mp hs)
    subst hnil
    rfl
  | succ fuel ih =>
    intro s hs
    cases s with
    | nil => rfl
    | cons c rest =>
      have hspec := globMatchAt_eq_spec (c :: rest)
      cases h : globMatchAt (c :: rest) with
      | some r =>
        rw [h] at hspec
        cases hm : specMatchLen (c :: rest) with
        | none => rw [hm] at hspec; simp at hspec
        | some n =>
          rw [hm] at hspec
          simp only [Option.map_some'] at hspec
          have hdrop : (c :: rest).drop n = r := by
            injection hspec.symm
          have hlen : r.length < (c :: rest).length := globMatchAt_length h
          have hle : r.length ≤ fuel := by
            have := Nat.lt_of_lt_of_le hlen hs
            omega
          simp only [globSubFuel, globTokenizeFuel, h, hm, hdrop, renderTokens,
            List.map_cons, List.flatten_cons]
          rw [ih r hle]
          rfl
      | none =>
        rw [h] at hspec
        have hm : specMatchLen (c :: rest) = none := by
          cases hm : specMatchLen (c :: rest)
          · rfl
          · rw [hm] at hspec; simp at hspec
        have hle : rest.length ≤ fuel := by
          simpa using Nat.le_of_succ_le_succ (by simpa using hs)
        simp only [globSubFuel, globTokenizeFuel, h, hm, renderTokens,
          List.map_cons, List.flatten_cons]
        rw [ih rest hle]
        rfl

/-- C2: `strip_glob` with separator a single space satisfies all four
literal cases of the specification: star-glob-star-like gives glob-space-
like, glob-question gives glo (the character before the question mark is
consumed with it), and both bracket classes reduce to glob. -/
theorem sg_C2_literal_cases :
    strip_glob ['*', 'g', 'l', 'o', 'b', '*', 'l', 'i', 'k', 'e'] [' ']
      = ['g', 'l', 'o', 'b', ' ', 'l', 'i', 'k', 'e'] ∧
    strip_glob ['g', 'l', 'o', 'b', '?'] [' '] = ['g', 'l', 'o'] ∧
    strip_glob ['g', 'l', 'o', 'b', '[', 's', 'e', 'q', ']'] [' ']
      = ['g', 'l', 'o', 'b'] ∧
    strip_glob ['g', 'l', 'o', 'b', '[', '!', 's', 'e', 'q', ']'] [' ']
      = ['g', 'l', 'o', 'b'] := by
  refine ⟨by decide, by decide, by decide, by decide⟩

/-- C3, counterexample: on the pattern star-star-a-star-star with separator
X, `strip_glob` yields X-X-a-X-X — each adjacent metacharacter match is
substituted separately (not one separator per maximal run), and the
non-whitespace separator copies are not trimmed from the ends — whereas the
claim as stated predicts the result a. -/
theorem sg_C3_cex :
    strip_glob ['*', '*', 'a', '*', '*'] ['X'] = ['X', 'X', 'a', 'X', 'X'] ∧
    ['X', 'X', 'a', 'X', 'X'] ≠ ['a'] := by
  refine ⟨by decide, by decide⟩

/-- C3, amended: for every pattern string and every separator string,
`strip_glob` replaces each leftmost non-overlapping glob-metacharacter
match (a star, a single question mark together with the one non-newline
character preceding it, or a bracketed class) with one copy of the
separator — a run of adjacent metacharacters yields one separator copy per
match — and then trims leading and trailing whitespace characters (not
separator copies) from the result. -/
theorem sg_C3_amended (string split_str : Str) :
    strip_glob string split_str = stripGlobSpec string split_str := by
  unfold strip_glob stripGlobSpec globSub globTokenize
  rw [globSubFuel_eq_render split_str string.length string (Nat.le_refl _)]

theorem sessionExists_iff (rows : List SessionRow) (sid : Str) :
    sessionExists rows sid = true ↔ ∃ s ∈ rows, s.session_id = sid := by
  simp [sessionExists]

theorem commandDup_iff (rows : List EventRecord) (r : EventRecord) :
    commandDup rows r = true ↔ ∃ x ∈ rows, fingerprint x = fingerprint r := by
  simp [commandDup]

theorem updateSessionRow_sid (s : SessionRow) (r : EventRecord) :
    (updateSessionRow s r).session_id = s.session_id := by
  cases hk : r.kind <;> simp [updateSessionRow, hk]

theorem upsertSession_sid_mem (rows : List SessionRow) (r : EventRecord) (sid : Str)
    (h : sessionExists rows sid = true) :
    sessionExists (upsertSession rows r) sid = true := by
  rcases (sessionExists_iff rows sid).mp h with ⟨s, hs, hsid⟩
  by_cases he : sessionExists rows r.session_id = true
  · apply (sessionExists_iff _ _).mpr
    refine ⟨if s.session_id = r.session_id then updateSessionRow s r else s, ?_, ?_⟩
    · simp only [upsertSession, he, if_true]
      exact List.mem_map.mpr ⟨s, hs, rfl⟩
    · by_cases hss : s.session_id = r.session_id
      · rw [if_pos hss, updateSessionRow_sid]
        exact hsid
      · rw [if_neg hss]
        exact hsid
  · apply (sessionExists_iff _ _).mpr
    refine ⟨s, ?_, hsid⟩
    simp [upsertSession, he, hs]

theorem upsertSession_self_mem (rows : List SessionRow) (r : EventRecord) :
    sessionExists (upsertSession rows r) r.session_id = true := by
  by_cases he : sessionExists rows r.session_id = true
  · rcases (sessionExists_iff rows r.session_id).mp he with ⟨s, hs, hsid⟩
    apply (sessionExists_iff _ _).mpr
    refine ⟨updateSessionRow s r, ?_, ?_⟩
    · simp only [upsertSession, he, if_true]
      refine List.mem_map.mpr ⟨s, hs, ?_⟩
      simp [hsid]
    · simp [updateSessionRow_sid, hsid]
  · apply (sessionExists_iff _ _).mpr
    refine ⟨updateSessionRow ⟨r.session_id, none, none⟩ r, ?_, ?_⟩
    · simp [upsertSession, he]
    · simp [updateSessionRow_sid]

theorem upsertSession_length_of_mem (rows : List SessionRow) (r : EventRecord)
    (h : sessionExists rows r.session_id = true) :
    (upsertSession rows r).length = rows.length := by
  simp [upsertSession, h]

theorem containsRecord_import_mono (db : IndexStore) (c : Option EventRecord)
    (cd : Bool) (r : EventRecord) (h : containsRecord db r = true) :
    containsRecord (import_json db c cd) r = true := by
  cases c with
  | none => simpa [import_json] using h
  | some r2 =>
    cases hk2 : r2.kind with
    | command =>
      by_cases hdup : (cd && commandDup db.commands r2) = true
      · simpa [import_json, hk2, hdup] using h
      · cases hk : r.kind <;>
          simp only [containsRecord, hk] at h ⊢ <;>
          simp only [import_json, hk2, hdup, if_false, Bool.false_eq_true] <;>
          [skip; skip; skip] <;> first
        | (exact h)
        | (rcases (commandDup_iff _ _).mp h with ⟨x, hx, hfp⟩
           exact (commandDup_iff _ _).mpr ⟨x, List.mem_append_left _ hx, hfp⟩)
    | init =>
      cases hk : r.kind <;> simp only [containsRecord, hk] at h ⊢ <;>
        simp only [import_json, hk2] <;>
        first
          | exact h
          | exact upsertSession_sid_mem _ _ _ h
    | exit =>
      cases hk : r.kind <;> simp only [containsRecord, hk] at h ⊢ <;>
        simp only [import_json, hk2] <;>
        first
          | exact h
          | exact upsertSession_sid_mem _ _ _ h

theorem containsRecord_import_self (db : IndexStore) (r : EventRecord) (cd : Bool) :
    containsRecord (import_json db (some r) cd) r = true := by
  cases hk : r.kind with
  | command =>
    simp only [containsRecord, import_json, hk]
    by_cases hdup : (cd && commandDup db.commands r) = true
    · rw [if_pos hdup]
      exact ((Bool.and_eq_true _ _).mp hdup).2
    · rw [if_neg hdup]
      exact (commandDup_iff _ _).mpr ⟨r, List.mem_append_right _ (by simp), rfl⟩
  | init =>
    simp only [containsRecord, hk, import_json]
    exact upsertSession_self_mem _ _
  | exit =>
    simp only [containsRecord, hk, import_json]
    exact upsertSession_self_mem _ _

theorem rowCount_import_absorbed (db : IndexStore) (r : EventRecord)
    (h : containsRecord db r = true) :
    rowCount (import_json db (some r) true) = rowCount db := by
  cases hk : r.kind with
  | command =>
    simp only [containsRecord, hk] at h
    simp [import_json, hk, h]
  | init =>
    simp only [containsRecord, hk] at h
    simp [import_json, hk, rowCount, upsertSession_length_of_mem db.sessions r h]
  | exit =>
    simp only [containsRecord, hk] at h
    simp [import_json, hk, rowCount, upsertSession_length_of_mem db.sessions r h]

theorem sweep_retval_none (rf : Str → Bool) (keep cd : Bool) :
    ∀ (fs : List SFile) (db : IndexStore),
      (sweepFiles rf keep cd fs db).retval = none := by
  intro fs
  induction fs with
  | nil => intro db; rfl
  | cons f rest ih =>
    intro db
    simp only [sweepFiles]
    split
    · split
      · exact ih _
      · split
        · rfl
        · exact ih _
    · exact ih _

theorem sweep_keep_clean (rf : Str → Bool) (cd : Bool) :
    ∀ (fs : List SFile) (db : IndexStore),
      (sweepFiles rf true cd fs db).removedPaths = [] ∧
      (sweepFiles rf true cd fs db).error = false := by
  intro fs
  induction fs with
  | nil => intro db; exact ⟨rfl, rfl⟩
  | cons f rest ih =>
    intro db
    by_cases hj : pyEndsWith (filePath f) jsonSuffix = true
    · simpa [sweepFiles, hj] using ih (import_json db f.content cd)
    · simpa [sweepFiles, hj] using ih db

theorem containsRecord_sweep_mono (rf : Str → Bool) (keep cd : Bool) (r : EventRecord) :
    ∀ (fs : List SFile) (db : IndexStore), containsRecord db r = true →
      containsRecord (sweepFiles rf keep cd fs db).db r = true := by
  intro fs
  induction fs with
  | nil =>
    intro db h
    simpa [sweepFiles] using h
  | cons f rest ih =>
    intro db h
    have h2 := containsRecord_import_mono db f.content cd r h
    simp only [sweepFiles]
    split
    · split
      · exact ih _ h2
      · split
        · exact h2
        · exact ih _ h2
    · exact ih _ h

theorem sweep_keep_establishes (rf : Str → Bool) (cd : Bool) :
    ∀ (fs : List SFile) (db : IndexStore) (f : SFile), f ∈ fs →
      pyEndsWith (filePath f) jsonSuffix = true →
      ∀ r, f.content = some r →
        containsRecord (sweepFiles rf true cd fs db).db r = true := by
  intro fs
  induction fs with
  | nil =>
    intro db f hf
    simp at hf
  | cons g rest ih =>
    intro db f hf hj r hc
    rcases List.mem_cons.mp hf with hfg | hfr
    · subst hfg
      simp only [sweepFiles, hj, if_true]
      apply containsRecord_sweep_mono
      rw [hc]
      exact containsRecord_import_self db r cd
    · by_cases hjg : pyEndsWith (filePath g) jsonSuffix = true
      · simpa [sweepFiles, hjg] using ih _ f hfr hj r hc
      · simpa [sweepFiles, hjg] using ih _ f hfr hj r hc

theorem sweep_rowCount_absorbed (rf : Str → Bool) :
    ∀ (fs : List SFile) (db : IndexStore),
      (∀ f ∈ fs, pyEndsWith (filePath f) jsonSuffix = true →
        ∀ r, f.content = some r → containsRecord db r = true) →
      rowCount (sweepFiles rf true true fs db).db = rowCount db := by
  intro fs
  induction fs with
  | nil =>
    intro db _
    rfl
  | cons g rest ih =>
    intro db h
    by_cases hj : pyEndsWith (filePath g) jsonSuffix = true
    · have hdb2 : rowCount (import_json db g.content true) = rowCount db := by
        cases hc : g.content with
        | none => rfl
        | some r => exact rowCount_import_absorbed db r (h g (by simp) hj r hc)
      have hcont : ∀ f ∈ rest, pyEndsWith (filePath f) jsonSuffix = true →
          ∀ r, f.content = some r →
            containsRecord (import_json db g.content true) r = true := by
        intro f hf hjf r hcr
        exact containsRecord_import_mono _ _ _ _ (h f (by simp [hf]) hjf r hcr)
      have := ih (import_json db g.content true) hcont
      simpa [sweepFiles, hj, this] using hdb2
    · simp only [sweepFiles, hj, if_false, Bool.false_eq_true]
      exact ih db (fun f hf => h f (by simp [hf]))

/-- C1: ingestion is idempotent.  For every staging directory and every
store, running `index_run` twice with `keep_json` set (so `check_duplicate`
is forced on and the source files survive the first run — the first run
removes nothing) leaves the Index Store row count after the second run
equal to the count after the first run; and re-ingesting any record already
held by the store with the duplicate check on never adds a row. -/
theorem idx_C1 (fs : List SFile) (db : IndexStore) (cd : Bool) (rf : Str → Bool) :
    (index_run fs true cd db rf).removedPaths = [] ∧
    rowCount (index_run fs true cd (index_run fs true cd db rf).db rf).db
      = rowCount (index_run fs true cd db rf).db ∧
    ∀ (db2 : IndexStore) (r : EventRecord), containsRecord db2 r = true →
      rowCount (import_json db2 (some r) true) = rowCount db2 := by
  have hidx : ∀ (d : IndexStore), index_run fs true cd d rf = sweepFiles rf true true fs d :=
    fun d => rfl
  refine ⟨?_, ?_, fun db2 r h => rowCount_import_absorbed db2 r h⟩
  · rw [hidx]
    exact (sweep_keep_clean rf true fs db).1
  · rw [hidx, hidx]
    exact sweep_rowCount_absorbed rf fs _
      (fun f hf hj r hc => sweep_keep_establishes rf true fs db f hf hj r hc)

theorem idx_C1_witness :
    containsRecord cexStore cexRecord = true ∧
    rowCount (import_json cexStore (some cexRecord) true) = rowCount cexStore :=
  ⟨by decide, (idx_C1 [] emptyStore false noRemoveFail).2.2 cexStore cexRecord (by decide)⟩

theorem sweep_error_nofail (keep cd : Bool) :
    ∀ (fs : List SFile) (db : IndexStore),
      (sweepFiles noRemoveFail keep cd fs db).error = false := by
  intro fs
  induction fs with
  | nil => intro db; rfl
  | cons f rest ih =>
    intro db
    simp only [sweepFiles]
    split
    · split
      · exact ih _
      · split
        · next h => simp [noRemoveFail] at h
        · exact ih _
    · exact ih _

theorem sweep_db_skip_malformed (keep cd : Bool) :
    ∀ (fs : List SFile) (db : IndexStore),
      (sweepFiles noRemoveFail keep cd fs db).db =
      (sweepFiles noRemoveFail keep cd (fs.filter (fun f => f.content.isSome)) db).db := by
  intro fs
  induction fs with
  | nil => intro db; rfl
  | cons f rest ih =>
    intro db
    cases hc : f.content with
    | some r =>
      have hfil : (f :: rest).filter (fun f => f.content.isSome) =
          f :: rest.filter (fun f => f.content.isSome) := by
        simp [List.filter_cons, hc]
      rw [hfil]
      simp only [sweepFiles]
      split
      · split
        · exact ih _
        · split
          · next h => simp [noRemoveFail] at h
          · exact ih _
      · exact ih _
    | none =>
      have hfil : (f :: rest).filter (fun f => f.content.isSome) =
          rest.filter (fun f => f.content.isSome) := by
        simp [List.filter_cons, hc]
      rw [hfil]
      simp only [sweepFiles, hc, import_json]
      split
      · split
        · exact ih _
        · split
          · next h => simp [noRemoveFail] at h
          · exact ih _
      · exact ih _

theorem sweep_imports_all (keep cd : Bool) :
    ∀ (fs : List SFile) (db : IndexStore) (f : SFile), f ∈ fs →
      pyEndsWith (filePath f) jsonSuffix = true →
      SweepEvent.imported (filePath f) cd ∈
        (sweepFiles noRemoveFail keep cd fs db).events := by
  intro fs
  induction fs with
  | nil =>
    intro db f hf
    simp at hf
  | cons g rest ih =>
    intro db f hf hj
    rcases List.mem_cons.mp hf with hfg | hfr
    · subst hfg
      simp only [sweepFiles, hj, if_true]
      split
      · exact List.mem_cons_self _ _
      · split
        · next h => simp [noRemoveFail] at h
        · exact List.mem_cons_self _ _
    · by_cases hjg : pyEndsWith (filePath g) jsonSuffix = true
      · simp only [sweepFiles, hjg, if_true]
        split
        · exact List.mem_cons_of_mem _ (ih _ f hfr hj)
        · split
          · next h => simp [noRemoveFail] at h
          · exact List.mem_cons_of_mem _ (List.mem_cons_of_mem _ (ih _ f hfr hj))
      · simp only [sweepFiles, hjg, if_false, Bool.false_eq_true]
        exact ih _ f hfr hj

/-- C4: a malformed record file never hurts a sweep.  For every staging
directory, store and flags (with no deletion failures), the sweep completes
without raising, the resulting store is the one obtained from the
well-formed files alone — a malformed file leaves the Index Store unchanged
for that record — and every json-named file of the directory, the malformed
ones included, is still import-processed, so no file aborts the sweep. -/
theorem idx_C4 (fs : List SFile) (db : IndexStore) (keep cd : Bool) :
    (index_run fs keep cd db noRemoveFail).error = false ∧
    (index_run fs keep cd db noRemoveFail).db =
      (index_run (fs.filter (fun f => f.content.isSome)) keep cd db noRemoveFail).db ∧
    ∀ f ∈ fs, pyEndsWith (filePath f) jsonSuffix = true →
      SweepEvent.imported (filePath f) (keep || cd) ∈
        (index_run fs keep cd db noRemoveFail).events := by
  have he : (if keep then true else cd) = (keep || cd) := by cases keep <;> rfl
  simp only [index_run, he]
  refine ⟨sweep_error_nofail _ _ fs db, sweep_db_skip_malformed _ _ fs db, ?_⟩
  intro f hf hj
  exact sweep_imports_all keep (keep || cd) fs db f hf hj

theorem idx_C4_witness :
    SweepEvent.imported (filePath wFile) true ∈
      (index_run [wFile] true false emptyStore noRemoveFail).events :=
  (idx_C4 [wFile] emptyStore true false).2.2 wFile (by decide) (by decide)

theorem sweep_import_flag (rf : Str → Bool) (keep cd : Bool) :
    ∀ (fs : List SFile) (db : IndexStore) (p : Str) (c : Bool),
      SweepEvent.imported p c ∈ (sweepFiles rf keep cd fs db).events → c = cd := by
  intro fs
  induction fs with
  | nil =>
    intro db p c h
    simp [sweepFiles] at h
  | cons f rest ih =>
    intro db p c h
    simp only [sweepFiles] at h
    split at h
    · split at h
      · rcases List.mem_cons.mp h with h1 | h2
        · injection h1 with hp hc
        · exact ih _ p c h2
      · split at h
        · simp only [List.mem_singleton, SweepEvent.imported.injEq] at h
          exact h.2
        · rcases List.mem_cons.mp h with h1 | h2
          · injection h1 with hp hc
          · rcases List.mem_cons.mp h2 with h3 | h4
            · simp at h3
            · exact ih _ p c h4
    · exact ih _ p c h

/-- C6: `keep_json` forces the duplicate check.  For every staging
directory, store and remove environment, `index_run` with `keep_json` set
behaves identically whatever `check_duplicate` the caller passed (it is
forced to true); and with `keep_json` unset every import performed by the
sweep carries exactly the caller's `check_duplicate` value. -/
theorem idx_C6 (fs : List SFile) (db : IndexStore) (cd : Bool) (rf : Str → Bool) :
    index_run fs true cd db rf = index_run fs true true db rf ∧
    ∀ (p : Str) (c : Bool),
      SweepEvent.imported p c ∈ (index_run fs false cd db rf).events → c = cd := by
  refine ⟨rfl, ?_⟩
  intro p c h
  exact sweep_import_flag rf false cd fs db p c h

theorem idx_C6_witness :
    index_run [wFile] true false emptyStore noRemoveFail
      = index_run [wFile] true true emptyStore noRemoveFail ∧
    (true : Bool) = true :=
  ⟨(idx_C6 [wFile] emptyStore false noRemoveFail).1,
   (idx_C6 [wFile] emptyStore true noRemoveFail).2 (filePath wFile) true (by decide)⟩

theorem sweep_removedAfterImported (rf : Str → Bool) (keep cd : Bool) :
    ∀ (fs : List SFile) (db : IndexStore) (seen : List Str),
      removedAfterImported (sweepFiles rf keep cd fs db).events seen = true := by
  intro fs
  induction fs with
  | nil => intro db seen; rfl
  | cons f rest ih =>
    intro db seen
    simp only [sweepFiles]
    split
    · split
      · exact ih _ _
      · split
        · rfl
        · show (decide (filePath f ∈ filePath f :: seen) && _) = true
          refine (Bool.and_eq_true _ _).mpr ⟨by simp, ih _ _⟩
    · exact ih _ _

theorem importJson_commands_append (db : IndexStore) (c : Option EventRecord) (cd : Bool) :
    ∃ t, (import_json db c cd).commands = db.commands ++ t := by
  cases c with
  | none => exact ⟨[], by simp [import_json]⟩
  | some r =>
    cases hk : r.kind with
    | command =>
      by_cases hdup : (cd && commandDup db.commands r) = true
      · exact ⟨[], by simp [import_json, hk, hdup]⟩
      · exact ⟨[r], by simp [import_json, hk, hdup]⟩
    | init => exact ⟨[], by simp [import_json, hk]⟩
    | exit => exact ⟨[], by simp [import_json, hk]⟩

theorem sweep_commands_append (rf : Str → Bool) (keep cd : Bool) :
    ∀ (fs : List SFile) (db : IndexStore),
      ∃ t, (sweepFiles rf keep cd fs db).db.commands = db.commands ++ t := by
  intro fs
  induction fs with
  | nil => intro db; exact ⟨[], by simp [sweepFiles]⟩
  | cons f rest ih =>
    intro db
    simp only [sweepFiles]
    split
    · rcases importJson_commands_append db f.content cd with ⟨t1, ht1⟩
      split
      · rcases ih (import_json db f.content cd) with ⟨t2, ht2⟩
        refine ⟨t1 ++ t2, ?_⟩
        show (sweepFiles rf keep cd rest (import_json db f.content cd)).db.commands = _
        rw [ht2, ht1, List.append_assoc]
      · split
        · exact ⟨t1, ht1⟩
        · rcases ih (import_json db f.content cd) with ⟨t2, ht2⟩
          refine ⟨t1 ++ t2, ?_⟩
          show (sweepFiles rf keep cd rest (import_json db f.content cd)).db.commands = _
          rw [ht2, ht1, List.append_assoc]
    · exact ih _

/-- C5, counterexample, refuting two parts of the claim as stated.  First,
with `keep_json` unset and the duplicate check on, a json file holding a
record the store already contains is removed by the sweep even though
nothing was ingested for it in this sweep — the store is unchanged — so a
source file can be deleted without its own successful ingestion.  Second,
when a deletion fails the failure is not merely reported: the run over two
json files whose removal fails errors out right after importing the first
file — the second file is never import-processed and nothing is recorded
as removed — while the completed insert of the first record does remain in
the commands table (no rollback). -/
theorem idx_C5_cex :
    (index_run [cexFile] false true cexStore noRemoveFail).removedPaths
      = [filePath cexFile] ∧
    (index_run [cexFile] false true cexStore noRemoveFail).db = cexStore ∧
    (index_run [wFile, cexFile] false false emptyStore failRemove).error = true ∧
    (index_run [wFile, cexFile] false false emptyStore failRemove).events
      = [SweepEvent.imported (filePath wFile) false] ∧
    (index_run [wFile, cexFile] false false emptyStore failRemove).db.commands
      = [wRecord] ∧
    (index_run [wFile, cexFile] false false emptyStore failRemove).removedPaths
      = [] := by
  refine ⟨by decide, by decide, by decide, by decide, by decide, by decide⟩

/-- C5, amended: for every sweep, when `keep_json` is true no source file is
deleted; every deletion happens only after the import call for that path
has been made (a delete is never issued for a path not already
import-processed earlier in the trace — though that import may have
duplicate-dropped or malformed-skipped the record rather than ingested it);
a deletion failure never rolls back rows already inserted, which remain as
a suffix extension of the starting commands table; and a deletion failure
is not caught: when `keep_json` is false and removing a json file's path
fails, the sweep ends immediately after that file's completed import, with
the error flag set, no removal recorded, no value returned, and none of the
remaining files processed. -/
theorem idx_C5_amended (fs : List SFile) (db : IndexStore) (cd : Bool)
    (rf : Str → Bool) (keep : Bool) :
    (keep = true → (index_run fs keep cd db rf).removedPaths = []) ∧
    removedAfterImported (index_run fs keep cd db rf).events [] = true ∧
    (∃ t, (index_run fs keep cd db rf).db.commands = db.commands ++ t) ∧
    ∀ (f : SFile) (rest : List SFile),
      pyEndsWith (filePath f) jsonSuffix = true → rf (filePath f) = true →
      index_run (f :: rest) false cd db rf =
        ⟨import_json db f.content cd,
         [SweepEvent.imported (filePath f) cd], [], true, none⟩ := by
  refine ⟨?_, ?_, ?_, ?_⟩
  · intro hk
    subst hk
    exact (sweep_keep_clean rf _ fs db).1
  · exact sweep_removedAfterImported rf keep _ fs db []
  · exact sweep_commands_append rf keep _ fs db
  · intro f rest hj hrf
    show sweepFiles rf false cd (f :: rest) db = _
    simp only [sweepFiles, hj, hrf, if_true, if_false, Bool.false_eq_true]

theorem idx_C5_witness :
    (index_run [wFile] true false emptyStore noRemoveFail).removedPaths = [] ∧
    index_run [wFile, cexFile] false false emptyStore failRemove =
      ⟨import_json emptyStore wFile.content false,
       [SweepEvent.imported (filePath wFile) false], [], true, none⟩ :=
  ⟨(idx_C5_amended [wFile] emptyStore false noRemoveFail true).1 rfl,
   (idx_C5_amended [] emptyStore false failRemove false).2.2.2 wFile [cexFile]
     (by decide) (by decide)⟩

theorem upsertSession_length_ge (rows : List SessionRow) (r : EventRecord) :
    rows.length ≤ (upsertSession rows r).length := by
  by_cases he : sessionExists rows r.session_id = true
  · simp [upsertSession, he]
  · simp [upsertSession, he]

theorem importJson_rowCount_mono (db : IndexStore) (c : Option EventRecord) (cd : Bool) :
    rowCount db ≤ rowCount (import_json db c cd) := by
  cases c with
  | none => exact Nat.le_refl _
  | some r =>
    cases hk : r.kind with
    | command =>
      by_cases hdup : (cd && commandDup db.commands r) = true
      · simp [import_json, hk, hdup]
      · simp only [import_json, hk]
        rw [if_neg hdup]
        simp [rowCount]
    | init =>
      simp only [import_json, hk, rowCount]
      have := upsertSession_length_ge db.sessions r
      omega
    | exit =>
      simp only [import_json, hk, rowCount]
      have := upsertSession_length_ge db.sessions r
      omega

theorem sweep_rowCount_mono (rf : Str → Bool) (keep cd : Bool) :
    ∀ (fs : List SFile) (db : IndexStore),
      rowCount db ≤ rowCount (sweepFiles rf keep cd fs db).db := by
  intro fs
  induction fs with
  | nil => intro db; exact Nat.le_refl _
  | cons f rest ih =>
    intro db
    simp only [sweepFiles]
    split
    · split
      · exact Nat.le_trans (importJson_rowCount_mono db f.content cd) (ih _)
      · split
        · exact importJson_rowCount_mono db f.content cd
        · exact Nat.le_trans (importJson_rowCount_mono db f.content cd) (ih _)
    · exact ih _

/-- C7, counterexample: a sweep that newly ingests one record (row count
grows from zero to one) still returns `None` — the Python function body has
no return statement — rather than the count of newly ingested records. -/
theorem idx_C7_cex :
    (index_run [wFile] true false emptyStore noRemoveFail).retval = none ∧
    rowCount (index_run [wFile] true false emptyStore noRemoveFail).db
      = rowCount emptyStore + 1 ∧
    (index_run [wFile] true false emptyStore noRemoveFail).retval ≠
      some (rowCount (index_run [wFile] true false emptyStore noRemoveFail).db
        - rowCount emptyStore) := by
  refine ⟨by decide, by decide, by decide⟩

/-- C7, amended: `index_run` returns `None` (its body has no return
statement); it does not report the count of newly ingested records.  That
count is observable only through the store: a sweep never shrinks the Index
Store — its row count is monotone — and the commands table is only extended,
by exactly the newly inserted rows. -/
theorem idx_C7_amended (fs : List SFile) (db : IndexStore) (keep cd : Bool)
    (rf : Str → Bool) :
    (index_run fs keep cd db rf).retval = none ∧
    rowCount db ≤ rowCount (index_run fs keep cd db rf).db ∧
    ∃ t, (index_run fs keep cd db rf).db.commands = db.commands ++ t :=
  ⟨sweep_retval_none rf keep _ fs db, sweep_rowCount_mono rf keep _ fs db,
   sweep_commands_append rf keep _ fs db⟩

theorem pyEndsWith_iff (s suffix : Str) :
    pyEndsWith s suffix = true ↔ ∃ t, s = t ++ suffix := by
  unfold pyEndsWith
  rw [decide_eq_true_eq]
  constructor
  · intro h
    refine ⟨s.take (s.length - suffix.length), ?_⟩
    conv_lhs => rw [← List.take_append_drop (s.length - suffix.length) s]
    rw [h]
  · rintro ⟨t, rfl⟩
    have hl : (t ++ suffix).length - suffix.length = t.length := by simp
    rw [hl, List.drop_left]

theorem endsWith_through_sep {sep : Char} {suffix : Str} (hsep : sep ∉ suffix) :
    ∀ (d n : Str), (∃ t, d ++ sep :: n = t ++ suffix) ↔ (∃ t, n = t ++ suffix) := by
  intro d
  induction d with
  | nil =>
    intro n
    constructor
    · rintro ⟨t, ht⟩
      cases t with
      | nil =>
        exfalso
        apply hsep
        simp only [List.nil_append] at ht
        rw [← ht]
        simp
      | cons a t2 =>
        simp only [List.cons_append, List.nil_append] at ht
        injection ht with h1 h2
        exact ⟨t2, h2⟩
    · rintro ⟨t, rfl⟩
      exact ⟨sep :: t, rfl⟩
  | cons c d2 ih =>
    intro n
    constructor
    · rintro ⟨t, ht⟩
      cases t with
      | nil =>
        exfalso
        apply hsep
        simp only [List.nil_append, List.cons_append] at ht
        rw [← ht]
        simp
      | cons a t2 =>
        simp only [List.cons_append] at ht
        injection ht with h1 h2
        exact (ih n).mp ⟨t2, h2⟩
    · rintro ⟨t, ht⟩
      rcases (ih n).mpr ⟨t, ht⟩ with ⟨t2, ht2⟩
      refine ⟨c :: t2, ?_⟩
      simp only [List.cons_append]
      rw [ht2]

theorem pyEndsWith_join (d n : Str) :
    pyEndsWith (joinPath d n) jsonSuffix = pyEndsWith n jsonSuffix := by
  have hsep : '/' ∉ jsonSuffix := by decide
  have h3 := endsWith_through_sep hsep d n
  by_cases hb : pyEndsWith n jsonSuffix = true
  · rw [hb]
    exact (pyEndsWith_iff _ _).mpr (h3.mpr ((pyEndsWith_iff _ _).mp hb))
  · have hj : ¬ pyEndsWith (joinPath d n) jsonSuffix = true := fun hc =>
      hb ((pyEndsWith_iff _ _).mpr (h3.mp ((pyEndsWith_iff _ _).mp hc)))
    rw [Bool.not_eq_true] at hj hb
    rw [hj, hb]

theorem sweep_events_json (rf : Str → Bool) (keep cd : Bool) :
    ∀ (fs : List SFile) (db : IndexStore) (e : SweepEvent),
      e ∈ (sweepFiles rf keep cd fs db).events →
      pyEndsWith (eventPath e) jsonSuffix = true := by
  intro fs
  induction fs with
  | nil =>
    intro db e h
    simp [sweepFiles] at h
  | cons f rest ih =>
    intro db e h
    simp only [sweepFiles] at h
    split at h
    · next hj =>
      split at h
      · rcases List.mem_cons.mp h with h1 | h2
        · subst h1; exact hj
        · exact ih _ e h2
      · split at h
        · simp only [List.mem_singleton] at h
          subst h; exact hj
        · rcases List.mem_cons.mp h with h1 | h2
          · subst h1; exact hj
          · rcases List.mem_cons.mp h2 with h3 | h4
            · subst h3; exact hj
            · exact ih _ e h4
    · exact ih _ e h

theorem sweep_removed_json (rf : Str → Bool) (keep cd : Bool) :
    ∀ (fs : List SFile) (db : IndexStore) (p : Str),
      p ∈ (sweepFiles rf keep cd fs db).removedPaths →
      pyEndsWith p jsonSuffix = true := by
  intro fs
  induction fs with
  | nil =>
    intro db p h
    simp [sweepFiles] at h
  | cons f rest ih =>
    intro db p h
    simp only [sweepFiles] at h
    split at h
    · next hj =>
      split at h
      · exact ih _ p h
      · split at h
        · simp at h
        · rcases List.mem_cons.mp h with h1 | h2
          · subst h1; exact hj
          · exact ih _ p h2
    · exact ih _ p h

theorem sweep_eq_filter_json (rf : Str → Bool) (keep cd : Bool) :
    ∀ (fs : List SFile) (db : IndexStore),
      sweepFiles rf keep cd fs db =
      sweepFiles rf keep cd
        (fs.filter (fun f => pyEndsWith (filePath f) jsonSuffix)) db := by
  intro fs
  induction fs with
  | nil => intro db; rfl
  | cons f rest ih =>
    intro db
    by_cases hj : pyEndsWith (filePath f) jsonSuffix = true
    · have hfil : (f :: rest).filter (fun f => pyEndsWith (filePath f) jsonSuffix) =
          f :: rest.filter (fun f => pyEndsWith (filePath f) jsonSuffix) := by
        simp [List.filter_cons, hj]
      rw [hfil]
      simp only [sweepFiles, hj, if_true]
      rw [ih (import_json db f.content cd)]
    · have hfil : (f :: rest).filter (fun f => pyEndsWith (filePath f) jsonSuffix) =
          rest.filter (fun f => pyEndsWith (filePath f) jsonSuffix) := by
        simp [List.filter_cons, hj]
      rw [hfil]
      simp only [sweepFiles, hj, if_false, Bool.false_eq_true]
      exact ih db

/-- C10: only json-named files are touched.  For every sweep, the result is
identical to the sweep over only the files whose path ends in the json
suffix; and a file whose name does not end in the json suffix is never
removed and never import-processed — even when `keep_json` is false — so it
is neither read into the database nor deleted. -/
theorem idx_C10 (fs : List SFile) (db : IndexStore) (keep cd : Bool)
    (rf : Str → Bool) :
    index_run fs keep cd db rf =
      index_run (fs.filter (fun f => pyEndsWith (filePath f) jsonSuffix))
        keep cd db rf ∧
    ∀ f ∈ fs, pyEndsWith f.name jsonSuffix = false →
      (filePath f ∉ (index_run fs keep cd db rf).removedPaths ∧
       ∀ c, SweepEvent.imported (filePath f) c ∉
         (index_run fs keep cd db rf).events) := by
  refine ⟨sweep_eq_filter_json rf keep _ fs db, ?_⟩
  intro f hf hn
  have hp : pyEndsWith (filePath f) jsonSuffix = false := by
    rw [filePath, pyEndsWith_join]
    exact hn
  constructor
  · intro hmem
    have hj := sweep_removed_json rf keep _ fs db _ hmem
    rw [hj] at hp
    exact absurd hp (by decide)
  · intro c hmem
    have hj := sweep_events_json rf keep _ fs db _ hmem
    simp only [eventPath] at hj
    rw [hj] at hp
    exact absurd hp (by decide)

theorem idx_C10_witness :
    filePath wTxtFile ∉
      (index_run [wTxtFile] false true emptyStore noRemoveFail).removedPaths :=
  ((idx_C10 [wTxtFile] emptyStore false true noRemoveFail).2 wTxtFile
    (by decide) (by decide)).1

/-- C8, counterexample: on a successfully parsed query the finder re-runs
the search with a cap of 50 when the parsed pattern list is empty and of
1000 when it is non-empty — the small cap goes with the empty pattern, the
large cap with the non-empty one, the opposite of the claim as stated. -/
theorem find_C8_cex :
    rashFinderFind (fun _ => some ⟨[]⟩) (fun _ => []) (fun _ _ => (0 : Nat))
        [' '] ['q'] [] = some ⟨some ⟨[], 50⟩, [], [], 0⟩ ∧
    rashFinderFind (fun _ => some ⟨[['x']]⟩) (fun _ => []) (fun _ _ => (0 : Nat))
        [' '] ['q'] [] = some ⟨some ⟨[['x']], 1000⟩, ['x'], [], 0⟩ ∧
    (50 : Nat) < 1000 := by
  refine ⟨by decide, by decide, by decide⟩

/-- C8, amended: for every query string that the finder successfully
lexes and parses as a structured filter, the search is re-run with a result
cap that is small (50) when the parsed literal pattern list is empty and
large (1000) when it is non-empty. -/
theorem find_C8_amended {ρ : Type} (parse : List Str → Option ParsedKwds)
    (search_command_record : SearchKwds → List EventRecord)
    (baseFind : Str → List Str → ρ) (split_str query : Str)
    (collection : List Str) (args : List Str) (kwds : ParsedKwds)
    (hlex : shlexSplit query = some args) (hparse : parse args = some kwds) :
    (rashFinderFind parse search_command_record baseFind split_str query
        collection).map FindCall.searchKwds =
      some (some ⟨kwds.pattern, if kwds.pattern = [] then 50 else 1000⟩) := by
  simp [rashFinderFind, hlex, hparse]

theorem find_C8_witness :
    shlexSplit ['q'] = some [['q']] ∧
    (rashFinderFind (fun _ => some ⟨[]⟩) (fun _ => []) (fun _ _ => (0 : Nat))
        [' '] ['q'] []).map FindCall.searchKwds =
      some (some ⟨[], if ([] : List Str) = [] then 50 else 1000⟩) :=
  ⟨by decide,
   find_C8_amended (fun _ => some ⟨[]⟩) (fun _ => []) (fun _ _ => (0 : Nat))
     [' '] ['q'] [] [['q']] ⟨[]⟩ (by decide) rfl⟩

/-- C9, counterexample: a query consisting of a single double-quote
character fails to parse as a structured filter (already its shlex lexing
fails with an unclosed quotation), and `RashFinder.find` raises that
`ValueError` out to the caller — `shlex.split` runs before the try block —
instead of falling back to the base substring finder. -/
theorem find_C9_cex :
    rashFinderFind (fun _ => some ⟨[]⟩) (fun _ => []) (fun _ _ => (0 : Nat))
      [' '] [dquoteChar] [] = none := by
  decide

/-- C9, amended: for every query string whose shlex lexing succeeds but
whose structured-filter parse fails, `RashFinder.find` surfaces no error:
it falls back to the base substring finder applied to the whole original
query over the current collection.  (A query whose shlex lexing itself
fails — unclosed quote or trailing escape — instead raises `ValueError` out
of `find`.) -/
theorem find_C9_amended {ρ : Type} (parse : List Str → Option ParsedKwds)
    (search_command_record : SearchKwds → List EventRecord)
    (baseFind : Str → List Str → ρ) (split_str query : Str)
    (collection : List Str) (args : List Str)
    (hlex : shlexSplit query = some args) (hparse : parse args = none) :
    rashFinderFind parse search_command_record baseFind split_str query
        collection =
      some ⟨none, query, collection, baseFind query collection⟩ := by
  simp [rashFinderFind, hlex, hparse]

theorem find_C9_witness :
    rashFinderFind (fun _ => none) (fun _ => []) (fun _ _ => (7 : Nat))
        [' '] ['q'] [['a']] =
      some ⟨none, ['q'], [['a']], 7⟩ :=
  find_C9_amended (fun _ => none) (fun _ => []) (fun _ _ => (7 : Nat))
    [' '] ['q'] [['a']] [['q']] (by decide) rfl
